import Mathlib
/-!
# Shallow embedding of the futures-rs asynchronous I/O core

This file embeds, in Lean, the data model and operations of the `futures-io`
and `futures-util` crates of the repository:

* `ReadBuf` (`futures-io/src/read_buf.rs`): the partially-initialized buffer
  cursor.  Memory is modelled as `List (Option Nat)`, a cell being `none`
  when the underlying byte is uninitialized (`MaybeUninit` with no value
  written yet) and `some v` once the byte value `v` has been written.
  Panicking operations return `Option` (`none` = abort).
* The readiness-poll contract (`futures-io/src/lib.rs`): readers and writers
  are modelled as explicit state-transition functions returning a three-way
  `Poll` outcome, and the `CoreIoError` trait as a structure of error
  constructors; `MinimalIoError` is embedded directly.
* The completion-driving combinators (`futures-util/src/io/*.rs`):
  `CopyInto`, `ReadExact`, `Read`, `Flush`, `Close`.  Their internal `loop`s
  are embedded as fuel-indexed recursion; the Rust `panic!`/`unwrap` abort
  path is a distinct `panicked` outcome, and exhausted fuel is `fuelOut`
  (never reached in the theorems below, which supply sufficient fuel).
-/

namespace Futures

/-! ## ReadBuf: the partial-initialization buffer cursor -/
/-- Embedding of `ReadBuf` (read_buf.rs lines 10-14): a byte buffer together
with the `filled` and `initialized` offsets.  A cell is `none` while the
underlying `MaybeUninit<u8>` has never been written. -/
structure ReadBuf where
  buf : List (Option Nat)
  filled : Nat
  initialized : Nat
deriving DecidableEq
/-- Embeds `ReadBuf::new` (lines 19-27): wraps a fully initialized buffer with
`filled = 0` and `initialized = length`. -/
def ReadBuf.new (data : List Nat) : ReadBuf :=
  { buf := data.map some, filled := 0, initialized := data.length }
/-- Embeds `ReadBuf::uninit` (lines 33-39): wraps a fully uninitialized buffer with
`filled = 0` and `initialized = 0`. -/
def ReadBuf.uninit (c : Nat) : ReadBuf :=
  { buf := List.replicate c none, filled := 0, initialized := 0 }
/-- Embeds `ReadBuf::len` (lines 43-45): the full size of the buffer. -/
def ReadBuf.len (b : ReadBuf) : Nat :=
  b.buf.length
/-- Embeds `ReadBuf::filled` (lines 49-51): shared view of `buf[0..filled]`. -/
def ReadBuf.filledBytes (b : ReadBuf) : List (Option Nat) :=
  b.buf.take b.filled
/-- Embeds `ReadBuf::initialized` (lines 63-65): shared view of
`buf[0..initialized]`. -/
def ReadBuf.initializedBytes (b : ReadBuf) : List (Option Nat) :=
  b.buf.take b.initialized
/-- Embeds `ReadBuf::remaining` (lines 112-114): `len - filled`. -/
def ReadBuf.remaining (b : ReadBuf) : Nat :=
  b.len - b.filled
/-- Embeds `ptr::write_bytes(.., 0, n)` over the cells `[a, a+n)` of a buffer:
every cell in the range becomes an initialized zero byte. -/
def zeroRange (mem : List (Option Nat)) (a n : Nat) : List (Option Nat) :=
  mem.mapIdx fun i x => if a ≤ i ∧ i < a + n then some 0 else x
/-- Embeds `ptr::copy(src, dst, len)` writing `bs` into the cells starting at
offset `a` of a buffer. -/
def writeRange (mem : List (Option Nat)) (a : Nat) (bs : List Nat) : List (Option Nat) :=
  mem.mapIdx fun i x => if a ≤ i ∧ i < a + bs.length then some (bs.getD (i - a) 0) else x
/-- Embeds `ReadBuf::initialize_unfilled_to` (lines 102-108).  The body takes the
slice `buf[initialized..n]` (panicking when `initialized > n` or
`n > buf.len()`) and zero-fills its `n - initialized` bytes.  Note: the body
does not modify `self.filled` or `self.initialized`. -/
def ReadBuf.initialize_unfilled_to (b : ReadBuf) (n : Nat) : Option ReadBuf :=
  if b.initialized ≤ n ∧ n ≤ b.buf.length then
    some { b with buf := zeroRange b.buf b.initialized (n - b.initialized) }
  else
    none
/-- The set of buffer indices the body of `initialize_unfilled_to(n)` writes
to (line 105: `write_bytes` of `n - initialized` bytes starting at offset
`initialized`), assuming the slice bounds hold. -/
def ReadBuf.initUnfilledWrites (b : ReadBuf) (n : Nat) : List Nat :=
  List.range' b.initialized (n - b.initialized)
/-- Embeds `ReadBuf::initialize_unfilled` (lines 91-93):
`initialize_unfilled_to(len())`. -/
def ReadBuf.initialize_unfilled (b : ReadBuf) : Option ReadBuf :=
  b.initialize_unfilled_to b.len
/-- Embeds `ReadBuf::clear` (lines 120-122): `filled = 0`, nothing else changes. -/
def ReadBuf.clear (b : ReadBuf) : ReadBuf :=
  { b with filled := 0 }
/-- Embeds `ReadBuf::add_filled` (lines 132-135): asserts
`filled + n <= initialized` then `filled += n`. -/
def ReadBuf.add_filled (b : ReadBuf) (n : Nat) : Option ReadBuf :=
  if b.filled + n ≤ b.initialized then
    some { b with filled := b.filled + n }
  else
    none
/-- Embeds `ReadBuf::set_filled` (lines 148-151): asserts `n <= initialized` then
`filled = n`. -/
def ReadBuf.set_filled (b : ReadBuf) (n : Nat) : Option ReadBuf :=
  if n ≤ b.initialized then
    some { b with filled := n }
  else
    none
/-- Embeds `ReadBuf::append` (lines 172-179): asserts `remaining() >= buf.len()`,
then copies the bytes into `buf[filled..filled+len]`.  Note: the body does
not modify `self.filled` or `self.initialized`. -/
def ReadBuf.append (b : ReadBuf) (bs : List Nat) : Option ReadBuf :=
  if bs.length ≤ b.remaining then
    some { b with buf := writeRange b.buf b.filled bs }
  else
    none
/-- The safe mutating or panicking `ReadBuf` operations reachable after
construction (the read-only accessors `len`, `filled`, `initialized` and
`remaining` do not change the state and are included as identity calls). -/
inductive BufOp where
  | lenOp
  | filledOp
  | initializedOp
  | remainingOp
  | initializeUnfilled
  | initializeUnfilledTo (n : Nat)
  | clearOp
  | addFilled (n : Nat)
  | setFilled (n : Nat)
  | appendOp (bs : List Nat)
deriving DecidableEq
/-- One safe `ReadBuf` call; `none` means the call panicked. -/
def ReadBuf.exec (op : BufOp) (b : ReadBuf) : Option ReadBuf :=
  match op with
  | .lenOp => some b
  | .filledOp => some b
  | .initializedOp => some b
  | .remainingOp => some b
  | .initializeUnfilled => b.initialize_unfilled
  | .initializeUnfilledTo n => b.initialize_unfilled_to n
  | .clearOp => some (b.clear)
  | .addFilled n => b.add_filled n
  | .setFilled n => b.set_filled n
  | .appendOp bs => b.append bs
/-- A sequence of safe `ReadBuf` calls, aborting the whole sequence at the
first panic. -/
def ReadBuf.execSeq (ops : List BufOp) (b : ReadBuf) : Option ReadBuf :=
  match ops with
  | [] => some b
  | op :: rest => (ReadBuf.exec op b).bind (ReadBuf.execSeq rest)
/-- The cursor invariant claimed by the specification:
`filled ≤ initialized ≤ capacity`. -/
def ReadBuf.inv (b : ReadBuf) : Prop :=
  b.filled ≤ b.initialized ∧ b.initialized ≤ b.buf.length
instance (b : ReadBuf) : Decidable b.inv := by
  unfold ReadBuf.inv; infer_instance
/-! ## The readiness-poll contract and error taxonomy -/
/-- Embedding of `Poll<T, E> = Result<Async<T>, E>` from `futures-core` as
used throughout `futures-io`: `ready` is `Ok(Async::Ready(_))`, `pending` is
`Ok(Async::Pending)`, `ioErr` is `Err(_)`. -/
inductive Poll (α : Type) (ε : Type) where
  | ready (a : α)
  | pending
  | ioErr (e : ε)
deriving DecidableEq
/-- Embedding of the `CoreIoError` trait (lib.rs lines 73-89): the two
required error constructors. -/
structure ErrOps (ε : Type) where
  write_zero : String → ε
  unexpected_eof : String → ε
/-- Embedding of `MinimalIoError` (lib.rs lines 94-110). -/
inductive MinimalIoError where
  | WriteZero (msg : String)
  | UnexpectedEof (msg : String)
deriving DecidableEq
/-- The `CoreIoError` impl for `MinimalIoError` (lib.rs lines 112-120). -/
def minimalErr : ErrOps MinimalIoError :=
  { write_zero := MinimalIoError.WriteZero, unexpected_eof := MinimalIoError.UnexpectedEof }
/-- A `CoreAsyncRead` implementation, as an explicit state machine over the
reader state `ρ`: `poll_read` takes the current state and the length of the
destination buffer, and on `ready` yields the list of bytes written at the
head of that buffer together with the successor state (the returned byte
count of the Rust contract is the length of that list). -/
structure Reader (ρ : Type) (ε : Type) where
  poll_read : ρ → Nat → Poll (List Nat × ρ) ε
/-- A `CoreAsyncWrite` implementation over the writer state `ω`:
`poll_write` receives the bytes to write and on `ready` yields the count
accepted together with the successor state; `poll_flush` and `poll_close`
yield the successor state. -/
structure Writer (ω : Type) (ε : Type) where
  poll_write : ω → List Nat → Poll (Nat × ω) ε
  poll_flush : ω → Poll ω ε
  poll_close : ω → Poll ω ε
/-- A reader honouring the slice bound of the Rust contract: the bytes
written never exceed the destination buffer's length. -/
def Reader.Valid (R : Reader ρ ε) : Prop :=
  ∀ r req data r', R.poll_read r req = .ready (data, r') → data.length ≤ req
/-- The `&[u8]` reader (lib.rs lines 279-295): always ready, copies
`min(self.len(), buf.len())` bytes from the front of the slice and advances
the slice past them. -/
def sliceReader : Reader (List Nat) ε :=
  { poll_read := fun s req =>
      let len := min s.length req
      .ready (s.take len, s.drop len) }
/-- Default `poll_vectored_read_core` (lib.rs lines 176-185): with segment
lengths `vec`, delegate `poll_read` to the first segment when one exists,
otherwise return `Ready(0)`.  On `ready` the result is the reported byte
count and the successor reader state. -/
def poll_vectored_read_core (R : Reader ρ ε) (r : ρ) (vec : List Nat) :
    Poll (Nat × ρ) ε :=
  match vec with
  | first :: _ =>
    match R.poll_read r first with
    | .ready (data, r') => .ready (data.length, r')
    | .pending => .pending
    | .ioErr e => .ioErr e
  | [] => .ready (0, r)
/-- Default `poll_vectored_write_core` (lib.rs lines 226-235): with segment
contents `vec`, delegate `poll_write` to the first segment when one exists,
otherwise return `Ready(0)`. -/
def poll_vectored_write_core (W : Writer ω ε) (w : ω) (vec : List (List Nat)) :
    Poll (Nat × ω) ε :=
  match vec with
  | first :: _ => W.poll_write w first
  | [] => .ready (0, w)
/-! ## CopyInto (futures-util/src/io/copy_into.rs) -/
/-- Outcome of one combinator `poll` call: `ready` carries the `Ok(Ready)`
payload along with the combinator state left behind, `pending` and `ioErr`
carry the (possibly mutated) state, `panicked` is the Rust abort path
(`panic!` or `Option::unwrap` on `None`), and `fuelOut` marks exhausted
fuel of the embedding (never the program's own behaviour). -/
inductive PRes (α : Type) (σ : Type) (ε : Type) where
  | ready (a : α) (st : σ)
  | pending (st : σ)
  | ioErr (e : ε) (st : σ)
  | panicked
  | fuelOut
deriving DecidableEq
/-- Embedding of the `CopyInto` future state (copy_into.rs lines 12-20). -/
structure CopyInto (ρ ω : Type) where
  reader : Option ρ
  read_done : Bool
  writer : Option ω
  pos : Nat
  cap : Nat
  amt : Nat
  buf : Option (List Nat)
deriving DecidableEq
/-- Embeds `copy_into` (copy_into.rs lines 22-32). -/
def copy_into (r : ρ) (w : ω) (b : List Nat) : CopyInto ρ ω :=
  { reader := some r, read_done := false, writer := some w,
    pos := 0, cap := 0, amt := 0, buf := some b }
/-- The inner `while self.pos < self.cap` drain loop of `CopyInto::poll`
(copy_into.rs lines 59-69): write `buf[pos..cap]`; a ready write of `0`
bytes is the fatal `write_zero` error; otherwise advance `pos` and `amt`
and continue.  `ready () st` means the loop exited with `pos ≥ cap`. -/
def copyWriteLoop (W : Writer ω ε) (E : ErrOps ε) :
    Nat → CopyInto ρ ω → PRes Unit (CopyInto ρ ω) ε
  | 0, _ => .fuelOut
  | fuel + 1, st =>
    if st.pos < st.cap then
      match st.writer, st.buf with
      | some w, some b =>
        if st.cap ≤ b.length then
          match W.poll_write w ((b.take st.cap).drop st.pos) with
          | .pending => .pending st
          | .ioErr e => .ioErr e st
          | .ready (i, w') =>
            if i = 0 then
              .ioErr (E.write_zero "write zero byte into writer") { st with writer := some w' }
            else
              copyWriteLoop W E fuel
                { st with writer := some w', pos := st.pos + i, amt := st.amt + i }
        else .panicked
      | _, _ => .panicked
    else .ready () st
/-- Embeds `CopyInto::poll` (copy_into.rs lines 42-82): the outer `loop`.  Each
fuel step is one pass: refill the buffer from the reader when it is
exhausted and EOF has not been seen (a zero-byte read records EOF), drain
the buffer through the write loop, and when the buffer is drained after
EOF, flush the writer and resolve to `(amt, reader, writer, buf)`, taking
the resources out of the state. -/
def copyPoll (R : Reader ρ ε) (W : Writer ω ε) (E : ErrOps ε) :
    Nat → CopyInto ρ ω → PRes (Nat × ρ × ω × List Nat) (CopyInto ρ ω) ε
  | 0, _ => .fuelOut
  | fuel + 1, st =>
    let refill : PRes (Nat × ρ × ω × List Nat) (CopyInto ρ ω) ε ⊕ CopyInto ρ ω :=
      if st.pos = st.cap ∧ st.read_done = false then
        match st.reader, st.buf with
        | some r, some b =>
          match R.poll_read r b.length with
          | .pending => Sum.inl (.pending st)
          | .ioErr e => Sum.inl (.ioErr e st)
          | .ready (data, r') =>
            if data.length = 0 then
              Sum.inr { st with reader := some r', read_done := true }
            else
              Sum.inr { st with
                reader := some r'
                buf := some (data ++ b.drop data.length)
                pos := 0
                cap := data.length }
        | _, _ => Sum.inl .panicked
      else Sum.inr st
    match refill with
    | Sum.inl out => out
    | Sum.inr st1 =>
      match copyWriteLoop W E (fuel + 1) st1 with
      | .ready _ st2 =>
        if st2.pos = st2.cap ∧ st2.read_done = true then
          match st2.writer with
          | some w =>
            match W.poll_flush w with
            | .pending => .pending st2
            | .ioErr e => .ioErr e st2
            | .ready w' =>
              match st2.reader, st2.buf with
              | some r, some b =>
                .ready (st2.amt, r, w', b)
                  { st2 with reader := none, writer := none, buf := none }
              | _, _ => .panicked
          | none => .panicked
        else copyPoll R W E fuel st2
      | .pending st2 => .pending st2
      | .ioErr e st2 => .ioErr e st2
      | .panicked => .panicked
      | .fuelOut => .fuelOut
/-- A reader with no data: every poll reports an immediate EOF. -/
def emptyReader : Reader Unit MinimalIoError :=
  { poll_read := fun _ _ => .ready ([], ()) }
/-- A writer that is always ready but accepts zero bytes of every request,
and flushes and closes successfully. -/
def zeroWriter : Writer Unit MinimalIoError :=
  { poll_write := fun _ _ => .ready (0, ())
    poll_flush := fun w => .ready w
    poll_close := fun w => .ready w }
/-! ## Copy correctness (C5) -/
/-- The family of always-ready readers that deliver a fixed byte sequence in
arbitrarily-sized non-empty chunks and then report EOF: the state is the
call counter paired with the bytes not yet delivered, and the chunk-size
oracle `cs` picks each chunk's size (clamped to the request and to the
bytes left, and at least one byte while any are left). -/
def chunkReader (cs : Nat → Nat) : Reader (Nat × List Nat) ε :=
  { poll_read := fun s req =>
      let n := min (min (cs s.1 + 1) req) s.2.length
      .ready (s.2.take n, (s.1 + 1, s.2.drop n)) }
/-- The always-ready writer that accepts every requested byte, recording the
bytes it has received as its state, and flushes and closes successfully. -/
def acceptAllWriter : Writer (List Nat) ε :=
  { poll_write := fun out bs => .ready (bs.length, out ++ bs)
    poll_flush := fun out => .ready out
    poll_close := fun out => .ready out }
/-! ## ReadExact (futures-util/src/io/read_exact.rs) -/
/-- Embedding of the `ReadExact` future state (read_exact.rs lines 14-26):
`reading` is `State::Reading { a, buf, pos }`, `empty` is `State::Empty`. -/
inductive REState (ρ : Type) where
  | reading (a : ρ) (buf : List Nat) (pos : Nat)
  | empty
deriving DecidableEq
/-- Embeds `read_exact` (read_exact.rs lines 28-39). -/
def read_exact (a : ρ) (buf : List Nat) : REState ρ :=
  .reading a buf 0
/-- The `while *pos < buf.len()` loop of `ReadExact::poll` (read_exact.rs
lines 50-58): read into `buf[pos..]`, add the returned count to `pos`, and
fail with `unexpected_eof` on a zero-byte read; when the buffer is full,
fall through to the `mem::replace` (lines 62-65) returning `(a, buf)` and
leaving `State::Empty` behind. -/
def readExactLoop (R : Reader ρ ε) (E : ErrOps ε) :
    Nat → ρ → List Nat → Nat → PRes (ρ × List Nat) (REState ρ) ε
  | 0, _, _, _ => .fuelOut
  | fuel + 1, a, buf, pos =>
    if pos < buf.length then
      match R.poll_read a (buf.length - pos) with
      | .pending => .pending (.reading a buf pos)
      | .ioErr e => .ioErr e (.reading a buf pos)
      | .ready (data, a') =>
        let buf' := buf.take pos ++ data ++ buf.drop (pos + data.length)
        if data.length = 0 then
          .ioErr (E.unexpected_eof "early eof") (.reading a' buf' (pos + data.length))
        else
          readExactLoop R E fuel a' buf' (pos + data.length)
    else .ready (a, buf) .empty
/-- Embeds `ReadExact::poll` (read_exact.rs lines 48-67): drive the loop in state
`Reading`; polling in state `Empty` is the explicit
`panic!("poll a ReadExact after it is done")` path. -/
def readExactPoll (R : Reader ρ ε) (E : ErrOps ε) (fuel : Nat) :
    REState ρ → PRes (ρ × List Nat) (REState ρ) ε
  | .reading a buf pos => readExactLoop R E fuel a buf pos
  | .empty => .panicked
/-! ## Read, Flush, Close (futures-util/src/io/{read,flush,close}.rs) -/
/-- Embedding of the `Read` future state (read.rs lines 8-15): the source
calls its active variant `State::Pending`. -/
inductive RdState (ρ : Type) where
  | pending (rd : ρ) (buf : List Nat)
  | empty
deriving DecidableEq
/-- Embeds `read` (read.rs lines 17-22). -/
def read (rd : ρ) (buf : List Nat) : RdState ρ :=
  .pending rd buf
/-- Embeds `Read::poll` (read.rs lines 39-50): a single best-effort `poll_read`;
on readiness, resolve to `(rd, buf, nread)` leaving `State::Empty`; polling
in state `Empty` is the `panic!("poll a Read after it is done")` path. -/
def readPoll (R : Reader ρ ε) : RdState ρ → PRes (ρ × List Nat × Nat) (RdState ρ) ε
  | .pending rd buf =>
    match R.poll_read rd buf.length with
    | .pending => .pending (.pending rd buf)
    | .ioErr e => .ioErr e (.pending rd buf)
    | .ready (data, rd') => .ready (rd', data ++ buf.drop data.length, data.length) .empty
  | .empty => .panicked
/-- Embedding of the `Flush` future (flush.rs lines 13-15). -/
structure Flush (ω : Type) where
  a : Option ω
deriving DecidableEq
/-- Embeds `flush` (flush.rs lines 17-23). -/
def flush (a : ω) : Flush ω :=
  ⟨some a⟩
/-- Embeds `Flush::poll` (flush.rs lines 31-34): flush the resource and resolve to
it via `self.a.take().unwrap()`; once it has resolved, `a` is `None` and a
further poll hits `Option::unwrap` on `None`, which aborts. -/
def flushPoll (W : Writer ω ε) : Flush ω → PRes ω (Flush ω) ε
  | ⟨some w⟩ =>
    match W.poll_flush w with
    | .pending => .pending ⟨some w⟩
    | .ioErr e => .ioErr e ⟨some w⟩
    | .ready w' => .ready w' ⟨none⟩
  | ⟨none⟩ => .panicked
/-- Embedding of the `Close` future (close.rs lines 14-16). -/
structure Close (ω : Type) where
  a : Option ω
deriving DecidableEq
/-- Embeds `close` (close.rs lines 18-24). -/
def close (a : ω) : Close ω :=
  ⟨some a⟩
/-- Embeds `Close::poll` (close.rs lines 32-35): like `Flush::poll` with
`poll_close`. -/
def closePoll (W : Writer ω ε) : Close ω → PRes ω (Close ω) ε
  | ⟨some w⟩ =>
    match W.poll_close w with
    | .pending => .pending ⟨some w⟩
    | .ioErr e => .ioErr e ⟨some w⟩
    | .ready w' => .ready w' ⟨none⟩
  | ⟨none⟩ => .panicked

/-! ## Theorems -/

theorem zeroRange_length (mem : List (Option Nat)) (a n : Nat) :
    (zeroRange mem a n).length = mem.length := by
  simp [zeroRange]
theorem writeRange_length (mem : List (Option Nat)) (a : Nat) (bs : List Nat) :
    (writeRange mem a bs).length = mem.length := by
  simp [writeRange]
theorem exec_inv (op : BufOp) (b b' : ReadBuf) (h : b.inv)
    (hx : ReadBuf.exec op b = some b') :
    b'.inv ∧ b.initialized ≤ b'.initialized ∧ b'.buf.length = b.buf.length := by
  obtain ⟨h1, h2⟩ := h
  cases op <;>
    simp only [ReadBuf.exec, ReadBuf.initialize_unfilled, ReadBuf.initialize_unfilled_to,
      ReadBuf.clear, ReadBuf.add_filled, ReadBuf.set_filled, ReadBuf.append,
      Option.some.injEq] at hx
  case lenOp => subst hx; exact ⟨⟨h1, h2⟩, le_refl _, rfl⟩
  case filledOp => subst hx; exact ⟨⟨h1, h2⟩, le_refl _, rfl⟩
  case initializedOp => subst hx; exact ⟨⟨h1, h2⟩, le_refl _, rfl⟩
  case remainingOp => subst hx; exact ⟨⟨h1, h2⟩, le_refl _, rfl⟩
  case initializeUnfilled =>
    split at hx
    · injection hx with hx
      subst hx
      exact ⟨⟨h1, by simpa [zeroRange_length] using h2⟩, le_refl _, zeroRange_length _ _ _⟩
    · exact absurd hx (by simp)
  case initializeUnfilledTo n =>
    split at hx
    · injection hx with hx
      subst hx
      exact ⟨⟨h1, by simpa [zeroRange_length] using h2⟩, le_refl _, zeroRange_length _ _ _⟩
    · exact absurd hx (by simp)
  case clearOp =>
    obtain rfl := hx.symm
    exact ⟨⟨Nat.zero_le _, h2⟩, le_refl _, rfl⟩
  case addFilled n =>
    split at hx
    · injection hx with hx
      subst hx
      exact ⟨⟨by assumption, h2⟩, le_refl _, rfl⟩
    · exact absurd hx (by simp)
  case setFilled n =>
    split at hx
    · injection hx with hx
      subst hx
      exact ⟨⟨by assumption, h2⟩, le_refl _, rfl⟩
    · exact absurd hx (by simp)
  case appendOp bs =>
    split at hx
    · injection hx with hx
      subst hx
      exact ⟨⟨h1, by simpa [writeRange_length] using h2⟩, le_refl _, writeRange_length _ _ _⟩
    · exact absurd hx (by simp)
theorem execSeq_inv (ops : List BufOp) (b b' : ReadBuf) (h : b.inv)
    (hx : ReadBuf.execSeq ops b = some b') :
    b'.inv ∧ b.initialized ≤ b'.initialized := by
  induction ops generalizing b with
  | nil =>
    simp only [ReadBuf.execSeq, Option.some.injEq] at hx
    obtain rfl := hx.symm
    exact ⟨h, le_refl _⟩
  | cons op rest ih =>
    simp only [ReadBuf.execSeq] at hx
    cases hm : ReadBuf.exec op b with
    | none => rw [hm] at hx; exact absurd hx (by simp)
    | some bm =>
      rw [hm] at hx
      simp only [Option.some_bind] at hx
      obtain ⟨hmInv, hmMono, _⟩ := exec_inv op b bm h hm
      obtain ⟨hInv', hMono'⟩ := ih bm hmInv hx
      exact ⟨hInv', le_trans hmMono hMono'⟩
/-- C1. For every sequence of safe Buffer Cursor operations that does not
abort, started from either constructor, the invariant
`filled ≤ initialized ≤ capacity` holds after every call (equivalently:
after executing every prefix of the sequence), and the `initialized` offset
never decreases across any call. -/
theorem readBuf_safe_ops_invariant :
    (∀ data : List Nat, (ReadBuf.new data).inv) ∧
    (∀ c : Nat, (ReadBuf.uninit c).inv) ∧
    (∀ (op : BufOp) (b b' : ReadBuf), b.inv → ReadBuf.exec op b = some b' →
      b'.inv ∧ b.initialized ≤ b'.initialized) ∧
    (∀ (ops : List BufOp) (b b' : ReadBuf), b.inv → ReadBuf.execSeq ops b = some b' →
      b'.inv ∧ b.initialized ≤ b'.initialized) := by
  refine ⟨?_, ?_, ?_, ?_⟩
  · intro data
    exact ⟨Nat.zero_le _, by simp [ReadBuf.new]⟩
  · intro c
    exact ⟨le_refl 0, Nat.zero_le _⟩
  · intro op b b' h hx
    obtain ⟨h1, h2, _⟩ := exec_inv op b b' h hx
    exact ⟨h1, h2⟩
  · intro ops b b' h hx
    exact execSeq_inv ops b b' h hx
/-- Witness for C1 at a concrete operation sequence. -/
theorem readBuf_safe_ops_invariant_witness :
    (ReadBuf.new [3, 4]).inv ∧
    ∀ b', ReadBuf.execSeq [.addFilled 1, .clearOp, .setFilled 2, .appendOp []]
        (ReadBuf.new [3, 4]) = some b' →
      b'.inv ∧ (ReadBuf.new [3, 4]).initialized ≤ b'.initialized := by
  refine ⟨by decide, fun b' hx => readBuf_safe_ops_invariant.2.2.2 _ _ _ (by decide) hx⟩
/-- C2, code bug. Evaluating `initialize_unfilled_to` at a concrete
input inside the claimed range `initialized ≤ n ≤ capacity`: on a fully
uninitialized 4-byte buffer, `initialize_unfilled_to 2` zero-fills the
bytes `[0, 2)` but leaves the `initialized` offset at `0` — the body never
advances `self.initialized`, while the specification (and the surrounding
documentation of `ReadBuf`) require it to become `max(0, 2) = 2`. -/
theorem initialize_unfilled_to_does_not_advance :
    (ReadBuf.uninit 4).initialize_unfilled_to 2 =
      some { buf := [some 0, some 0, none, none], filled := 0, initialized := 0 } := by
  decide
/-- C3, code bug. Because `initialize_unfilled_to` never advances
`initialized`, a second identical call re-zeroes exactly the bytes the
first call already initialized: starting from a fresh 4-byte buffer, the
first call to `initialize_unfilled_to 2` writes to indices `[0, 1]`, and on
the resulting state the same call again writes to indices `[0, 1]` (the
claim requires the second call to write nothing already initialized). -/
theorem initialize_unfilled_to_rezeros :
    (ReadBuf.uninit 4).initUnfilledWrites 2 = [0, 1] ∧
    Option.map (fun b' => b'.initUnfilledWrites 2)
      ((ReadBuf.uninit 4).initialize_unfilled_to 2) = some [0, 1] := by
  decide
/-- C4, code bug. Evaluating `append` at a concrete input with enough
remaining capacity: on `ReadBuf::new([0, 0])`, `append [5]` copies the byte
into position `0` but leaves `filled` at `0` — the body never advances
`self.filled`, while the claim (and the method documentation itself,
"advancing the written position") require `filled` to become `1`. -/
theorem append_does_not_advance_filled :
    (ReadBuf.new [0, 0]).append [5] =
      some { buf := [some 5, some 0], filled := 0, initialized := 2 } := by
  decide
/-- C9. The default vectored read (resp. write) on an empty segment list
returns `Ready(0)` immediately, and its result does not depend on the
underlying single-buffer operation at all; on a non-empty segment list it
delegates to the single-buffer operation applied to the first segment only,
returning that operation's result. -/
theorem vectored_defaults_first_segment {ρ ω ε : Type} :
    (∀ (R R' : Reader ρ ε) (r : ρ),
      poll_vectored_read_core R r [] = .ready (0, r) ∧
      poll_vectored_read_core R r [] = poll_vectored_read_core R' r []) ∧
    (∀ (R : Reader ρ ε) (r : ρ) (first : Nat) (rest : List Nat),
      poll_vectored_read_core R r (first :: rest) =
        poll_vectored_read_core R r [first] ∧
      (∀ data r', R.poll_read r first = .ready (data, r') →
        poll_vectored_read_core R r (first :: rest) = .ready (data.length, r')) ∧
      (R.poll_read r first = .pending →
        poll_vectored_read_core R r (first :: rest) = .pending) ∧
      (∀ e, R.poll_read r first = .ioErr e →
        poll_vectored_read_core R r (first :: rest) = .ioErr e)) ∧
    (∀ (W W' : Writer ω ε) (w : ω),
      poll_vectored_write_core W w [] = .ready (0, w) ∧
      poll_vectored_write_core W w [] = poll_vectored_write_core W' w []) ∧
    (∀ (W : Writer ω ε) (w : ω) (first : List Nat) (rest : List (List Nat)),
      poll_vectored_write_core W w (first :: rest) = W.poll_write w first) := by
  refine ⟨fun R R' r => ⟨rfl, rfl⟩, fun R r first rest => ⟨rfl, ?_, ?_, ?_⟩,
    fun W W' w => ⟨rfl, rfl⟩, fun W w first rest => rfl⟩
  · intro data r' h
    simp [poll_vectored_read_core, h]
  · intro h
    simp [poll_vectored_read_core, h]
  · intro e h
    simp [poll_vectored_read_core, h]
/-- Witness for C9 on concrete inputs: the slice reader over `[1, 2, 3]`
with segment list `[2, 5]` reads two bytes from the first segment only. -/
theorem vectored_defaults_first_segment_witness :
    poll_vectored_read_core (ε := MinimalIoError) sliceReader [1, 2, 3] [2, 5] =
      .ready (2, [3]) ∧
    poll_vectored_read_core (ε := MinimalIoError) sliceReader [1, 2, 3] [] =
      .ready (0, [1, 2, 3]) := by
  constructor
  · exact ((vectored_defaults_first_segment (ρ := List Nat) (ω := Unit)
      (ε := MinimalIoError)).2.1 sliceReader [1, 2, 3] 2 [5]).2.1 [1, 2] [3] (by decide)
  · exact ((vectored_defaults_first_segment (ρ := List Nat) (ω := Unit)
      (ε := MinimalIoError)).1 sliceReader sliceReader [1, 2, 3]).1
/-- C6. Whenever `CopyInto` asks the writer to write a non-empty slice
(`pos < cap`, slice `buf[pos..cap]`) and the writer reports zero bytes
written, that same poll returns the `write_zero` error immediately: the
result is the error for every fuel amount, so the write is never retried
and the combinator cannot loop on such a writer. -/
theorem copyInto_write_zero_fatal (R : Reader ρ ε) (W : Writer ω ε) (E : ErrOps ε)
    (st : CopyInto ρ ω) (w w' : ω) (b : List Nat) (fuel : Nat)
    (hpos : st.pos < st.cap) (hw : st.writer = some w) (hb : st.buf = some b)
    (hcap : st.cap ≤ b.length)
    (hzero : W.poll_write w ((b.take st.cap).drop st.pos) = .ready (0, w')) :
    copyPoll R W E (fuel + 1) st =
      .ioErr (E.write_zero "write zero byte into writer") { st with writer := some w' } := by
  have hne : ¬(st.pos = st.cap ∧ st.read_done = false) := by
    rintro ⟨h, -⟩; omega
  simp only [copyPoll, hne, if_false]
  have hloop : copyWriteLoop W E (fuel + 1) st =
      .ioErr (E.write_zero "write zero byte into writer") { st with writer := some w' } := by
    simp only [copyWriteLoop, hpos, if_true, hw, hb, hcap, hzero, if_pos rfl]
  simp only [hloop]
/-- Witness for C6: a writer that always accepts zero bytes, a one-byte
buffer already holding unwritten data. -/
theorem copyInto_write_zero_fatal_witness :
    copyPoll (ρ := Unit) (ω := Unit) emptyReader zeroWriter minimalErr 1
        { reader := some (), read_done := false, writer := some (),
          pos := 0, cap := 1, amt := 0, buf := some [7] } =
      .ioErr (MinimalIoError.WriteZero "write zero byte into writer")
        { reader := some (), read_done := false, writer := some (),
          pos := 0, cap := 1, amt := 0, buf := some [7] } := by
  exact copyInto_write_zero_fatal emptyReader zeroWriter minimalErr _ () () [7] 0
    (by decide) rfl rfl (by decide) rfl
theorem copyWriteLoop_exit (W : Writer ω ε) (E : ErrOps ε) (fuel : Nat)
    (st : CopyInto ρ ω) (hpos : ¬ st.pos < st.cap) :
    copyWriteLoop W E (fuel + 1) st = .ready () st := by
  simp only [copyWriteLoop, hpos, if_false]
theorem copyWriteLoop_accept (E : ErrOps ε) (fuel : Nat) (rd : Option ρ)
    (done : Bool) (out b : List Nat) (p c a : Nat)
    (hpos : p < c) (hcap : c ≤ b.length) :
    copyWriteLoop acceptAllWriter E (fuel + 2)
      { reader := rd, read_done := done, writer := some out,
        pos := p, cap := c, amt := a, buf := some b } =
    .ready ()
      { reader := rd, read_done := done, writer := some (out ++ (b.take c).drop p),
        pos := p + ((b.take c).drop p).length,
        cap := c, amt := a + ((b.take c).drop p).length, buf := some b } := by
  have hlen : ((b.take c).drop p).length = c - p := by
    simp only [List.length_drop, List.length_take]
    omega
  have hne : ¬ ((b.take c).drop p).length = 0 := by omega
  conv_lhs => rw [show fuel + 2 = (fuel + 1) + 1 from rfl]
  rw [copyWriteLoop]
  simp only [hpos, if_true, hcap, if_true, acceptAllWriter, hne, if_false]
  rw [copyWriteLoop]
  have hnotlt : ¬ p + ((b.take c).drop p).length < c := by omega
  simp only [hnotlt, if_false]
theorem copy_run (cs : Nat → Nat) (E : ErrOps ε) :
    ∀ (fuel k : Nat) (rem out b : List Nat) (p : Nat),
      1 ≤ b.length → rem.length + 1 ≤ fuel →
      ∃ (k' : Nat) (b' : List Nat) (st' : CopyInto (Nat × List Nat) (List Nat)),
        copyPoll (chunkReader cs) acceptAllWriter E fuel
          { reader := some (k, rem), read_done := false, writer := some out,
            pos := p, cap := p, amt := out.length, buf := some b } =
        .ready (out.length + rem.length, (k', []), out ++ rem, b') st' := by
  intro fuel
  induction fuel with
  | zero => intro k rem out b p hb hfuel; omega
  | succ f ih =>
    intro k rem out b p hb hfuel
    cases rem with
    | nil =>
      have hstep : copyPoll (chunkReader cs) acceptAllWriter E (f + 1)
          { reader := some (k, ([] : List Nat)), read_done := false, writer := some out,
            pos := p, cap := p, amt := out.length, buf := some b } =
          .ready (out.length, (k + 1, []), out, b)
            { reader := none, read_done := true, writer := none,
              pos := p, cap := p, amt := out.length, buf := none } := by
        rw [copyPoll]
        simp only [eq_self_iff_true, and_self, if_true, chunkReader]
        simp only [List.length_nil, Nat.min_zero, List.take_zero, List.drop_zero,
          List.length_nil, eq_self_iff_true, if_true]
        rw [copyWriteLoop_exit _ _ f _ (by simp)]
        simp only [eq_self_iff_true, and_self, if_true, acceptAllWriter]
      exact ⟨k + 1, b, _, by simpa using hstep⟩
    | cons x rest =>
      have hrl : 1 ≤ (x :: rest).length := by simp
      obtain ⟨n, hn⟩ : ∃ n, n = min (min (cs k + 1) b.length) (x :: rest).length :=
        ⟨_, rfl⟩
      have hn1 : 1 ≤ n := by rw [hn]; omega
      have hf1 : 1 ≤ f := by
        simp only [List.length_cons] at hfuel
        simp only [List.length_cons] at hrl
        omega
      have hnb : n ≤ b.length := by rw [hn]; omega
      have hnr : n ≤ (x :: rest).length := by rw [hn]; omega
      have hdl : ((x :: rest).take n).length = n := by
        simp only [List.length_take]
        omega
      have hb1len : ((x :: rest).take n ++ b.drop n).length = b.length := by
        simp only [List.length_append, List.length_drop, hdl]
        omega
      have htake : (((x :: rest).take n ++ b.drop n).take n).drop 0 = (x :: rest).take n := by
        rw [List.drop_zero, List.take_append_of_le_length (by omega), List.take_take,
          min_self]
      have hwl := copyWriteLoop_accept (ρ := Nat × List Nat) E (f - 1)
        (some (k + 1, (x :: rest).drop n)) false out ((x :: rest).take n ++ b.drop n)
        0 n out.length hn1 (by omega)
      rw [show f - 1 + 2 = f + 1 by omega, htake, hdl] at hwl
      have hstep : copyPoll (chunkReader cs) acceptAllWriter E (f + 1)
          { reader := some (k, x :: rest), read_done := false, writer := some out,
            pos := p, cap := p, amt := out.length, buf := some b } =
          copyPoll (chunkReader cs) acceptAllWriter E f
            { reader := some (k + 1, (x :: rest).drop n), read_done := false,
              writer := some (out ++ (x :: rest).take n), pos := n, cap := n,
              amt := out.length + n, buf := some ((x :: rest).take n ++ b.drop n) } := by
        rw [copyPoll]
        simp only [eq_self_iff_true, and_self, if_true, chunkReader]
        rw [← hn]
        simp only [hdl, if_neg (by omega : ¬ n = 0)]
        rw [hwl]
        simp only [Bool.false_eq_true, and_false, if_false, Nat.zero_add]
      obtain ⟨k', b', st', heq⟩ := ih (k + 1) ((x :: rest).drop n)
        (out ++ (x :: rest).take n) ((x :: rest).take n ++ b.drop n) n
        (by omega) (by simp only [List.length_drop]; simp only [List.length_cons] at hfuel ⊢; omega)
      have e1 : (out ++ (x :: rest).take n).length = out.length + n := by
        simp only [List.length_append, hdl]
      have e2 : (out ++ (x :: rest).take n) ++ (x :: rest).drop n = out ++ (x :: rest) := by
        rw [List.append_assoc, List.take_append_drop]
      have e3 : (out ++ (x :: rest).take n).length + ((x :: rest).drop n).length =
          out.length + (x :: rest).length := by
        simp only [List.length_append, List.length_drop, hdl]
        omega
      rw [e2, e3] at heq
      rw [← e1] at hstep
      exact ⟨k', b', st', hstep.trans heq⟩
/-- C5. For every reader delivering the byte sequence `S` in chunks of
arbitrary sizes followed by a zero-byte read (any chunk oracle `cs`), and
the writer that accepts every byte and flushes successfully, driving
`CopyInto` with any non-empty intermediate buffer completes with total byte
count `S.length`, and the writer has received exactly `S`. -/
theorem copyInto_copies_exactly (cs : Nat → Nat) (E : ErrOps ε) (S b : List Nat)
    (hb : 1 ≤ b.length) :
    ∃ (k' : Nat) (b' : List Nat) (st' : CopyInto (Nat × List Nat) (List Nat)),
      copyPoll (chunkReader cs) acceptAllWriter E (S.length + 2)
        (copy_into (0, S) ([] : List Nat) b) =
      .ready (S.length, (k', []), S, b') st' := by
  obtain ⟨k', b', st', h⟩ := copy_run cs E (S.length + 2) 0 S [] b 0 hb (by omega)
  refine ⟨k', b', st', ?_⟩
  simpa [copy_into] using h
/-- Witness for C5: the one-byte-per-chunk reader over `[1, 2, 3]` and a
two-byte buffer. -/
theorem copyInto_copies_exactly_witness :
    ∃ (k' : Nat) (b' : List Nat) (st' : CopyInto (Nat × List Nat) (List Nat)),
      copyPoll (chunkReader fun _ => 0) acceptAllWriter minimalErr 5
        (copy_into (0, [1, 2, 3]) ([] : List Nat) [9, 9]) =
      .ready (3, (k', []), [1, 2, 3], b') st' :=
  copyInto_copies_exactly (fun _ => 0) minimalErr [1, 2, 3] [9, 9] (by decide)
theorem readExact_run (cs : Nat → Nat) (E : ErrOps ε) :
    ∀ (fuel k pos : Nat) (rem buf : List Nat),
      pos ≤ buf.length → rem.length + 1 ≤ fuel →
      (buf.length - pos ≤ rem.length →
        ∃ k', readExactLoop (chunkReader cs) E fuel (k, rem) buf pos =
          .ready ((k', rem.drop (buf.length - pos)),
            buf.take pos ++ rem.take (buf.length - pos)) .empty) ∧
      (rem.length < buf.length - pos →
        ∃ st', readExactLoop (chunkReader cs) E fuel (k, rem) buf pos =
          .ioErr (E.unexpected_eof "early eof") st') := by
  intro fuel
  induction fuel with
  | zero => intro k pos rem buf hpos hfuel; omega
  | succ f ih =>
    intro k pos rem buf hpos hfuel
    by_cases hfull : pos < buf.length
    case neg =>
      have hpe : buf.length - pos = 0 := by omega
      constructor
      · intro _
        refine ⟨k, ?_⟩
        rw [readExactLoop, if_neg hfull, hpe]
        simp only [List.take_zero, List.drop_zero, List.append_nil,
          List.take_of_length_le (by omega : buf.length ≤ pos)]
      · intro hlt
        omega
    case pos =>
      cases rem with
      | nil =>
        constructor
        · intro hle
          simp only [List.length_nil] at hle
          omega
        · intro _
          refine ⟨.reading (k + 1, []) buf pos, ?_⟩
          rw [readExactLoop, if_pos hfull]
          simp only [chunkReader, List.length_nil, Nat.min_zero, List.take_zero,
            List.drop_zero, eq_self_iff_true, if_true, List.append_nil, Nat.add_zero,
            List.take_append_drop]
      | cons x rest =>
        obtain ⟨n, hn⟩ : ∃ n, n = min (min (cs k + 1) (buf.length - pos)) (x :: rest).length :=
          ⟨_, rfl⟩
        have hxr : 1 ≤ (x :: rest).length := by simp
        have hn1 : 1 ≤ n := by rw [hn]; omega
        have hnreq : n ≤ buf.length - pos := by rw [hn]; omega
        have hnr : n ≤ (x :: rest).length := by rw [hn]; omega
        have hdl : ((x :: rest).take n).length = n := by
          simp only [List.length_take]
          omega
        have hbl : (buf.take pos ++ (x :: rest).take n ++ buf.drop (pos + n)).length
            = buf.length := by
          simp only [List.length_append, List.length_take, List.length_drop, hdl]
          omega
        have hloopstep : readExactLoop (chunkReader cs) E (f + 1) (k, x :: rest) buf pos =
            readExactLoop (chunkReader cs) E f (k + 1, (x :: rest).drop n)
              (buf.take pos ++ (x :: rest).take n ++ buf.drop (pos + n)) (pos + n) := by
          rw [readExactLoop]
          simp only [hfull, if_true, chunkReader]
          rw [← hn]
          simp only [hdl, if_neg (by omega : ¬ n = 0)]
        have hfuel' : ((x :: rest).drop n).length + 1 ≤ f := by
          simp only [List.length_drop, List.length_cons] at hfuel ⊢
          simp only [List.length_cons] at hnr
          omega
        have hpos' : pos + n ≤ (buf.take pos ++ (x :: rest).take n ++ buf.drop (pos + n)).length := by
          rw [hbl]
          omega
        obtain ⟨ihfull, iheof⟩ := ih (k + 1) (pos + n) ((x :: rest).drop n)
          (buf.take pos ++ (x :: rest).take n ++ buf.drop (pos + n)) hpos' hfuel'
        rw [hbl] at ihfull iheof
        constructor
        · intro hle
          have hle' : buf.length - (pos + n) ≤ ((x :: rest).drop n).length := by
            simp only [List.length_drop]
            omega
          obtain ⟨k', hk'⟩ := ihfull hle'
          refine ⟨k', ?_⟩
          rw [hloopstep, hk']
          have hA : (buf.take pos ++ (x :: rest).take n).length = pos + n := by
            simp only [List.length_append, List.length_take, hdl]
            omega
          have ht1 : (buf.take pos ++ (x :: rest).take n ++ buf.drop (pos + n)).take (pos + n)
              = buf.take pos ++ (x :: rest).take n := by
            rw [List.take_append_of_le_length hA.ge, List.take_of_length_le hA.le]
          have hsub : buf.length - (pos + n) = buf.length - pos - n := by omega
          have ht3 : ((x :: rest).drop n).drop (buf.length - pos - n)
              = (x :: rest).drop (buf.length - pos) := by
            rw [List.drop_drop]
            congr 1
            omega
          rw [ht1, hsub, ht3]
          have ht4 : (x :: rest).take (buf.length - pos)
              = (x :: rest).take n ++ ((x :: rest).drop n).take (buf.length - pos - n) := by
            conv_lhs => rw [show buf.length - pos = n + (buf.length - pos - n) by omega]
            rw [List.take_add]
          rw [List.append_assoc, ← ht4]
        · intro hlt
          have hlt' : ((x :: rest).drop n).length < buf.length - (pos + n) := by
            simp only [List.length_drop, List.length_cons] at hlt ⊢
            simp only [List.length_cons] at hnr
            omega
          obtain ⟨st', hst'⟩ := iheof hlt'
          exact ⟨st', by rw [hloopstep, hst']⟩
/-- C7. For every reader delivering the byte sequence `S` in chunks of
arbitrary sizes and then EOF, and every destination buffer of length
`k > 0`: when `S` has at least `k` bytes, driving `ReadExact` succeeds with
the buffer completely filled by the first `k` bytes of `S` (success happens
only with all `k` bytes filled); when `S` is shorter than `k`, some
`poll_read` returns zero bytes before the buffer is full and `ReadExact`
fails with the `unexpected_eof` error instead of reporting success. -/
theorem readExact_fills_or_eof (cs : Nat → Nat) (E : ErrOps ε) (S buf : List Nat)
    (hk : 0 < buf.length) :
    (buf.length ≤ S.length →
      ∃ k', readExactPoll (chunkReader cs) E (S.length + 1) (read_exact (0, S) buf) =
        .ready ((k', S.drop buf.length), S.take buf.length) .empty) ∧
    (S.length < buf.length →
      ∃ st', readExactPoll (chunkReader cs) E (S.length + 1) (read_exact (0, S) buf) =
        .ioErr (E.unexpected_eof "early eof") st') := by
  have h := readExact_run cs E (S.length + 1) 0 0 S buf (Nat.zero_le _) (by omega)
  constructor
  · intro hle
    obtain ⟨k', hk'⟩ := h.1 (by omega)
    refine ⟨k', ?_⟩
    simpa [readExactPoll, read_exact] using hk'
  · intro hlt
    obtain ⟨st', hst'⟩ := h.2 (by omega)
    exact ⟨st', by simpa [readExactPoll, read_exact] using hst'⟩
/-- Witness for C7: a reader with exactly 3 bytes against a 10-byte buffer
fails with `UnexpectedEof`. -/
theorem readExact_fills_or_eof_witness :
    ∃ st', readExactPoll (chunkReader fun _ => 9) minimalErr 4
        (read_exact (0, [5, 6, 7]) (List.replicate 10 0)) =
      .ioErr (MinimalIoError.UnexpectedEof "early eof") st' :=
  (readExact_fills_or_eof (fun _ => 9) minimalErr [5, 6, 7] (List.replicate 10 0)
    (by decide)).2 (by decide)
/-- C10. A `ReadExact` built over a zero-length buffer resolves to the
reader and the buffer on the very first poll, for every reader (the result
does not depend on the reader implementation, so `poll_read` is never
invoked), with no `unexpected_eof` possible. -/
theorem readExact_empty_buffer_immediate (R : Reader ρ ε) (E : ErrOps ε)
    (fuel : Nat) (a : ρ) :
    readExactPoll R E (fuel + 1) (read_exact a []) = .ready (a, []) .empty := by
  simp only [read_exact, readExactPoll]
  rw [readExactLoop]
  simp
theorem readExactLoop_ready_empty (R : Reader ρ ε) (E : ErrOps ε) :
    ∀ (fuel : Nat) (a : ρ) (buf : List Nat) (pos : Nat) r st',
      readExactLoop R E fuel a buf pos = .ready r st' → st' = .empty := by
  intro fuel
  induction fuel with
  | zero => intro a buf pos r st' h; rw [readExactLoop] at h; cases h
  | succ f ih =>
    intro a buf pos r st' h
    rw [readExactLoop] at h
    by_cases hfull : pos < buf.length
    · rw [if_pos hfull] at h
      cases hr : R.poll_read a (buf.length - pos) with
      | pending => rw [hr] at h; cases h
      | ioErr e => rw [hr] at h; cases h
      | ready da =>
        obtain ⟨data, a'⟩ := da
        rw [hr] at h
        simp only at h
        by_cases hz : data.length = 0
        · rw [if_pos hz] at h; cases h
        · rw [if_neg hz] at h
          exact ih _ _ _ r st' h
    · rw [if_neg hfull] at h
      cases h
      rfl
theorem copyPoll_ready_state (R : Reader ρ ε) (W : Writer ω ε) (E : ErrOps ε) :
    ∀ (fuel : Nat) (st : CopyInto ρ ω) r st',
      copyPoll R W E fuel st = .ready r st' →
      st'.writer = none ∧ st'.pos = st'.cap ∧ st'.read_done = true := by
  intro fuel
  induction fuel with
  | zero => intro st r st' h; rw [copyPoll] at h; cases h
  | succ f ih =>
    intro st r st' h
    rw [copyPoll] at h
    rcases hr : (if st.pos = st.cap ∧ st.read_done = false then
        match st.reader, st.buf with
        | some r, some b =>
          match R.poll_read r b.length with
          | .pending => Sum.inl (.pending st)
          | .ioErr e => Sum.inl (.ioErr e st)
          | .ready (data, r') =>
            if data.length = 0 then
              Sum.inr { st with reader := some r', read_done := true }
            else
              Sum.inr { st with
                reader := some r'
                buf := some (data ++ b.drop data.length)
                pos := 0
                cap := data.length }
        | _, _ => Sum.inl .panicked
      else Sum.inr st : PRes (Nat × ρ × ω × List Nat) (CopyInto ρ ω) ε ⊕ CopyInto ρ ω) with
      out | st1
    · rw [hr] at h
      try simp only at h
      have : ∀ r st', out ≠ PRes.ready r st' := by
        split at hr
        · split at hr
          · split at hr <;> first
              | (cases hr; intro r st' hc; cases hc)
              | (split at hr <;> cases hr)
          · cases hr; intro r st' hc; cases hc
        · cases hr
      exact absurd h (this r st')
    · rw [hr] at h
      try simp only at h
      cases hwl : copyWriteLoop W E (f + 1) st1 with
      | ready u st2 =>
        rw [hwl] at h
        try simp only at h
        by_cases hdone : st2.pos = st2.cap ∧ st2.read_done = true
        · rw [if_pos hdone] at h
          cases hwr : st2.writer with
          | none => rw [hwr] at h; cases h
          | some w =>
            rw [hwr] at h
            try simp only at h
            cases hfl : W.poll_flush w with
            | pending => rw [hfl] at h; cases h
            | ioErr e => rw [hfl] at h; cases h
            | ready w' =>
              rw [hfl] at h
              try simp only at h
              cases hrd : st2.reader with
              | none => rw [hrd] at h; cases h
              | some rr =>
                rw [hrd] at h
                cases hbf : st2.buf with
                | none => rw [hbf] at h; cases h
                | some bb =>
                  rw [hbf] at h
                  try simp only at h
                  cases h
                  exact ⟨rfl, hdone.1, by simpa using hdone.2⟩
        · rw [if_neg hdone] at h
          exact ih st2 r st' h
      | pending st2 => rw [hwl] at h; cases h
      | ioErr e st2 => rw [hwl] at h; cases h
      | panicked => rw [hwl] at h; cases h
      | fuelOut => rw [hwl] at h; cases h
/-- C8. For each completion-driving combinator (`ReadExact`, `Read`,
`Flush`, `Close`, `CopyInto`): a poll that returns the completed result
always leaves the taken-out state behind (`State::Empty`, `a = None`, or
all resource fields `None` with the buffer drained and EOF recorded), and
polling that state again is reported through the abort/panic path — it is
never a silent `Pending` or a second success. -/
theorem completed_poll_is_programming_error (ρ ω ε : Type) :
    (∀ (R : Reader ρ ε) (E : ErrOps ε) (fuel : Nat) (st : REState ρ)
        (r : ρ × List Nat) (st' : REState ρ),
      readExactPoll R E fuel st = .ready r st' → st' = .empty) ∧
    (∀ (R : Reader ρ ε) (E : ErrOps ε) (fuel : Nat),
      readExactPoll R E fuel (REState.empty : REState ρ) = .panicked) ∧
    (∀ (R : Reader ρ ε) (st : RdState ρ) (r : ρ × List Nat × Nat) (st' : RdState ρ),
      readPoll R st = .ready r st' → st' = .empty) ∧
    (∀ (R : Reader ρ ε), readPoll R (RdState.empty : RdState ρ) = .panicked) ∧
    (∀ (W : Writer ω ε) (st : Flush ω) (r : ω) (st' : Flush ω),
      flushPoll W st = .ready r st' → st' = ⟨none⟩) ∧
    (∀ (W : Writer ω ε), flushPoll W (⟨none⟩ : Flush ω) = .panicked) ∧
    (∀ (W : Writer ω ε) (st : Close ω) (r : ω) (st' : Close ω),
      closePoll W st = .ready r st' → st' = ⟨none⟩) ∧
    (∀ (W : Writer ω ε), closePoll W (⟨none⟩ : Close ω) = .panicked) ∧
    (∀ (R : Reader ρ ε) (W : Writer ω ε) (E : ErrOps ε) (fuel : Nat)
        (st : CopyInto ρ ω) (r : Nat × ρ × ω × List Nat) (st' : CopyInto ρ ω),
      copyPoll R W E fuel st = .ready r st' →
        st'.writer = none ∧ st'.pos = st'.cap ∧ st'.read_done = true) ∧
    (∀ (R : Reader ρ ε) (W : Writer ω ε) (E : ErrOps ε) (fuel : Nat)
        (st : CopyInto ρ ω),
      st.writer = none → st.pos = st.cap → st.read_done = true →
      copyPoll R W E (fuel + 1) st = .panicked) := by
  refine ⟨?_, ?_, ?_, ?_, ?_, ?_, ?_, ?_, ?_, ?_⟩
  · intro R E fuel st r st' h
    cases st with
    | reading a buf pos => exact readExactLoop_ready_empty R E fuel a buf pos r st' h
    | empty => cases h
  · intro R E fuel; rfl
  · intro R st r st' h
    cases st with
    | pending rd buf =>
      simp only [readPoll] at h
      cases hr : R.poll_read rd buf.length with
      | pending => rw [hr] at h; cases h
      | ioErr e => rw [hr] at h; cases h
      | ready da =>
        obtain ⟨data, rd'⟩ := da
        rw [hr] at h
        cases h
        rfl
    | empty => cases h
  · intro R; rfl
  · intro W st r st' h
    obtain ⟨a⟩ := st
    cases a with
    | none => cases h
    | some w =>
      simp only [flushPoll] at h
      cases hf : W.poll_flush w with
      | pending => rw [hf] at h; cases h
      | ioErr e => rw [hf] at h; cases h
      | ready w' => rw [hf] at h; cases h; rfl
  · intro W; rfl
  · intro W st r st' h
    obtain ⟨a⟩ := st
    cases a with
    | none => cases h
    | some w =>
      simp only [closePoll] at h
      cases hf : W.poll_close w with
      | pending => rw [hf] at h; cases h
      | ioErr e => rw [hf] at h; cases h
      | ready w' => rw [hf] at h; cases h; rfl
  · intro W; rfl
  · intro R W E fuel st r st' h
    exact copyPoll_ready_state R W E fuel st r st' h
  · intro R W E fuel st hw hpc hrd
    have hc : ¬ (st.pos = st.cap ∧ st.read_done = false) := by
      rw [hrd]
      simp
    simp only [copyPoll, hc, if_false]
    rw [copyWriteLoop_exit W E fuel st (by rw [hpc]; exact lt_irrefl _)]
    simp only [hpc, hrd, and_self, if_true, eq_self_iff_true, hw]
/-- Witness for C8 at concrete completed states of `ReadExact`, `Flush` and
`CopyInto`. -/
theorem completed_poll_is_programming_error_witness :
    readExactPoll emptyReader minimalErr 3 (REState.empty : REState Unit) = .panicked ∧
    flushPoll zeroWriter (⟨none⟩ : Flush Unit) = .panicked ∧
    copyPoll emptyReader zeroWriter minimalErr 1
      { reader := none, read_done := true, writer := none,
        pos := 2, cap := 2, amt := 5, buf := none } = .panicked := by
  refine ⟨(completed_poll_is_programming_error Unit Unit MinimalIoError).2.1
    emptyReader minimalErr 3, ?_, ?_⟩
  · exact (completed_poll_is_programming_error Unit Unit
      MinimalIoError).2.2.2.2.2.1 zeroWriter
  · exact (completed_poll_is_programming_error Unit Unit
      MinimalIoError).2.2.2.2.2.2.2.2.2 emptyReader zeroWriter minimalErr 0 _ rfl rfl rfl

end Futures
